import Mathlib

/-!
Verification of the go-vanityurls-apex handler (`handler/handler.go`).

Go strings are modelled as `List Char` (valid UTF-8 byte-wise lexicographic
order coincides with code-point lexicographic order), Go `int` as `Int`,
`nil` pointers/optional fields as `Option`, and the handler's mutable fields
as an explicit `HandlerState` record threaded through `configure`.
-/

namespace VanityUrls

/-- Go strings, modelled as lists of characters. -/
abbrev Str := List Char

/-- Go's `<` on strings (byte-wise lexicographic), used by
`pathConfigSet.Less` and (negated) by the `>=` comparison inside
`pathConfigSet.find`'s binary-search predicate. -/
def strLt : Str → Str → Bool
  | [], [] => false
  | [], _ :: _ => true
  | _ :: _, [] => false
  | a :: as, b :: bs => if a < b then true else if b < a then false else strLt as bs

/-- Go's `>=` on strings: `a >= b` iff not `a < b`. -/
def strGe (a b : Str) : Bool := !strLt a b

/-- Go `strings.TrimSuffix(s, suffix)`: drop `suffix` from the end of `s`
when it is a suffix, otherwise return `s` unchanged. -/
def trimSuffix (s suffix : Str) : Str :=
  if suffix <:+ s then s.take (s.length - suffix.length) else s

/-- Go `strings.TrimPrefix(s, pre)`: drop `pre` from the front of `s`
when it is a prefix, otherwise return `s` unchanged. -/
def trimPrefix (s pre : Str) : Str :=
  if pre <+: s then s.drop pre.length else s

/-- `pathConfig` from handler.go: one compiled vanity-path entry. -/
structure pathConfig where
  path : Str
  repo : Str
  display : Str
  vcs : Str
deriving DecidableEq, Repr

/-- The raw per-path record inside `Config.Paths` (`repo`, `display`, `vcs`,
each possibly empty). -/
structure PathSpec where
  repo : Str
  display : Str
  vcs : Str
deriving DecidableEq, Repr

/-- `Config` from handler.go: the raw fetched configuration.  The Go map
`Paths` is modelled as an association list in some iteration order. -/
structure Config where
  host : Str
  fetchInterval : Option Int
  cacheAge : Option Int
  paths : List (Str × PathSpec)
deriving DecidableEq, Repr

/-- The mutable fields of `Handler` (`host`, `cacheControl`, `paths`). -/
structure HandlerState where
  host : Str
  cacheControl : Str
  paths : List pathConfig
deriving DecidableEq, Repr

/-- Validation failures of `Handler.configure`, tagged with the data the Go
error message carries. -/
inductive ConfigError where
  | negativeCacheAge
  | unknownVCS (path vcs : Str)
  | cannotInferVCS (path repo : Str)
deriving DecidableEq, Repr

/-- The path at index `k` of the entry list (out of range gives `[]`;
the binary search only ever probes in range). -/
def pathAt (pset : List pathConfig) (k : Nat) : Str :=
  (pset[k]?.map pathConfig.path).getD []

/-- Go `sort.Search`'s binary-search loop, with fuel: the loop body
`for i < j { h := (i+j)/2; if !f(h) { i = h+1 } else { j = h } }`.
`j - i` shrinks every iteration, so any fuel `≥ j - i` yields the loop's
result. -/
def sortSearchAux (f : Nat → Bool) : Nat → Nat → Nat → Nat
  | 0, i, _ => i
  | fuel + 1, i, j =>
    if i < j then
      if f ((i + j) / 2) then sortSearchAux f fuel i ((i + j) / 2)
      else sortSearchAux f fuel ((i + j) / 2 + 1) j
    else i

/-- Go `sort.Search(n, f)`. -/
def sortSearch (n : Nat) (f : Nat → Bool) : Nat :=
  sortSearchAux f n 0 n

/-- The slow-path scan of `pathConfigSet.find` (handler.go lines 267-286):
iterate in ascending index order over the entries strictly before the
binary-search position, tracking the best (shortest-residual) match. -/
def slowLoop (p : Str) : List pathConfig → Option pathConfig → Str → Nat →
    Option pathConfig × Str
  | [], best, subpath, _ => (best, subpath)
  | ps :: rest, best, subpath, lenShortest =>
    if p.length ≤ ps.path.length then
      slowLoop p rest best subpath lenShortest
    else
      if (trimPrefix p ps.path).length < lenShortest then
        slowLoop p rest (some ps) (trimPrefix p ps.path) (trimPrefix p ps.path).length
      else
        slowLoop p rest best subpath lenShortest

/-- `pathConfigSet.find` from handler.go: binary search for an exact match,
then the parent-prefix fast path at position `i-1`, then the linear
shortest-subpath scan over positions `< i`. -/
def find (pset : List pathConfig) (p : Str) : Option pathConfig × Str :=
  let i := sortSearch pset.length fun k => strGe (pathAt pset k) p
  if i < pset.length ∧ pathAt pset i = p then
    (pset[i]?, [])
  else if 0 < i ∧ (pathAt pset (i - 1) ++ ['/']) <+: p then
    (pset[i - 1]?, p.drop ((pathAt pset (i - 1)).length + 1))
  else
    slowLoop p (pset.take i) none [] p.length

/-- The repo-URL literal `"https://github.com/"` tested by `configure`. -/
def githubPfx : Str := "https://github.com/".toList

/-- The repo-URL literal `"https://bitbucket.org"` tested by `configure`. -/
def bitbucketPfx : Str := "https://bitbucket.org".toList

/-- `fmt.Sprintf("public, max-age=%d", cacheAge)`. -/
def cacheControlString (n : Int) : Str :=
  "public, max-age=".toList ++ (toString n).toList

/-- The github display template
`fmt.Sprintf("%v %v/tree/master{/dir} %v/blob/master{/dir}/{file}#L{line}", repo, repo, repo)`. -/
def githubDisplay (repo : Str) : Str :=
  repo ++ " ".toList ++ repo ++ "/tree/master{/dir} ".toList ++ repo ++
    "/blob/master{/dir}/{file}#L{line}".toList

/-- The bitbucket display template
`fmt.Sprintf("%v %v/src/default{/dir} %v/src/default{/dir}/{file}#{file}-{line}", repo, repo, repo)`. -/
def bitbucketDisplay (repo : Str) : Str :=
  repo ++ " ".toList ++ repo ++ "/src/default{/dir} ".toList ++ repo ++
    "/src/default{/dir}/{file}#{file}-{line}".toList

/-- One iteration of `configure`'s `for path, e := range c.Paths` loop body
(handler.go lines 126-150): build the entry, infer `display` and `vcs`,
or fail with the Go error for this raw `key`. -/
def compileEntry (key : Str) (e : PathSpec) : Except ConfigError pathConfig :=
  let pc0 : pathConfig := ⟨trimSuffix key ['/'], e.repo, e.display, e.vcs⟩
  let pc1 : pathConfig :=
    if e.display ≠ [] then pc0
    else if githubPfx <+: e.repo then { pc0 with display := githubDisplay e.repo }
    else if bitbucketPfx <+: e.repo then { pc0 with display := bitbucketDisplay e.repo }
    else pc0
  if e.vcs ≠ [] then
    if e.vcs ≠ "bzr".toList ∧ e.vcs ≠ "git".toList ∧ e.vcs ≠ "hg".toList ∧
        e.vcs ≠ "svn".toList then
      Except.error (ConfigError.unknownVCS key e.vcs)
    else Except.ok pc1
  else if githubPfx <+: e.repo then
    Except.ok { pc1 with vcs := "git".toList }
  else Except.error (ConfigError.cannotInferVCS key e.repo)

/-- `a` precedes-or-equals `b` in the order of `pathConfigSet.Less`
(`pset[i].path < pset[j].path`): not `b.path < a.path`. -/
def pcLe (a b : pathConfig) : Bool := !strLt b.path a.path

/-- Insert into a list sorted by `pcLe` (model of one step of the sorting
pass `sort.Sort(h.paths)`). -/
def insertSorted (a : pathConfig) : List pathConfig → List pathConfig
  | [] => [a]
  | b :: l => if pcLe a b then a :: b :: l else b :: insertSorted a l

/-- `sort.Sort(h.paths)` with comparison `pathConfigSet.Less`, modelled as
insertion sort (Go's sort only promises a permutation ordered by `Less`). -/
def sortPaths : List pathConfig → List pathConfig
  | [] => []
  | a :: l => insertSorted a (sortPaths l)

/-- The entry loop of `configure` followed by `sort.Sort(h.paths)`:
entries are appended to `h.paths` one at a time; the first failing entry
returns its error immediately (skipping the sort), leaving the state as
mutated so far. -/
def configureLoop (h : HandlerState) :
    List (Str × PathSpec) → HandlerState × Option ConfigError
  | [] => ({ h with paths := sortPaths h.paths }, none)
  | (key, e) :: rest =>
    match compileEntry key e with
    | Except.error err => (h, some err)
    | Except.ok pc => configureLoop { h with paths := h.paths ++ [pc] } rest

/-- `Handler.configure` (handler.go lines 107-157): validate the cache age
(before any mutation), then overwrite `host`, `cacheControl` and reset
`paths`, then run the entry loop and sort.  Returns the state as left by
the call together with the error, if any. -/
def configure (h : HandlerState) (c : Config) : HandlerState × Option ConfigError :=
  match c.cacheAge with
  | some n =>
    if n < 0 then (h, some ConfigError.negativeCacheAge)
    else
      configureLoop
        { host := c.host, cacheControl := cacheControlString n, paths := [] } c.paths
  | none =>
      configureLoop
        { host := c.host, cacheControl := cacheControlString 86400, paths := [] } c.paths

/-- The three possible response shapes of `Handler.ServeHTTP` (template
rendering is external; we record the data handed to each template). -/
inductive Response where
  | index (host : Str) (links : List Str)
  | notFound
  | vanity (cacheControl importPath subpath repo display vcs : Str)
deriving DecidableEq, Repr

/-- `Handler.getHost`: the configured host, or the request's host when the
configured one is empty. -/
def getHost (h : HandlerState) (reqHost : Str) : Str :=
  if h.host = [] then reqHost else h.host

/-- `Handler.ServeHTTP` dispatch (handler.go lines 159-187): resolve the
URL path; no match on exactly `/` renders the index, any other miss is
not-found, and a match renders the vanity document. -/
def serveHTTP (h : HandlerState) (reqHost urlPath : Str) : Response :=
  match find h.paths urlPath with
  | (none, _) =>
    if urlPath = "/".toList then
      Response.index (getHost h reqHost) (h.paths.map fun pc => getHost h reqHost ++ pc.path)
    else Response.notFound
  | (some pc, subpath) =>
    Response.vanity h.cacheControl (getHost h reqHost ++ pc.path) subpath
      pc.repo pc.display pc.vcs

/-- `NewHandler`'s failures: the initial fetch failed, or the initial
compile failed. -/
inductive HandlerError where
  | fetchFailed
  | compileFailed (e : ConfigError)
deriving DecidableEq, Repr

/-- The zero `Handler{}` value `NewHandler` starts from. -/
def emptyHandler : HandlerState := ⟨[], [], []⟩

/-- The fetch interval chosen by `NewHandler` (handler.go lines 69-78):
default 86400, overridden only when `fetch_interval` is present and
strictly positive. -/
def effectiveFetchInterval (c : Config) : Int :=
  match c.fetchInterval with
  | some v => if v > 0 then v else 86400
  | none => 86400

/-- `NewHandler` up to spawning the refresh goroutine: initial fetch
(`none` models a fetch error), interval selection, initial synchronous
configure; returns the initial state and the interval the loop will use. -/
def newHandler (fetchResult : Option Config) :
    Except HandlerError (HandlerState × Int) :=
  match fetchResult with
  | none => Except.error HandlerError.fetchFailed
  | some c =>
    match configure emptyHandler c with
    | (_, some e) => Except.error (HandlerError.compileFailed e)
    | (h, none) => Except.ok (h, effectiveFetchInterval c)

/-- One iteration of the refresh goroutine's body (handler.go lines 90-101):
a failed fetch is only logged; otherwise `configure` runs and its resulting
state (error or not) is what the handler now holds. -/
def refreshStep (h : HandlerState) (fetchResult : Option Config) : HandlerState :=
  match fetchResult with
  | none => h
  | some c => (configure h c).1

/-- A finite run of the refresh goroutine over a list of fetch outcomes:
each element of the result records the interval slept before that iteration
and the state after it.  The interval is the captured `fetchInterval`
variable, which the loop never reassigns. -/
def refreshRun (fi : Int) (h : HandlerState) :
    List (Option Config) → List (Int × HandlerState)
  | [] => []
  | r :: rs => (fi, refreshStep h r) :: refreshRun fi (refreshStep h r) rs

/-! ### Specification-side definitions used to state properties -/

/-- An entry the slow-path scan can select for request path `p`: its path is
a nonempty literal prefix of `p` strictly shorter than `p`. -/
def goodCand (p : Str) (e : pathConfig) : Prop :=
  e.path <+: p ∧ e.path.length < p.length ∧ e.path ≠ []

instance (p : Str) (e : pathConfig) : Decidable (goodCand p e) := by
  unfold goodCand
  infer_instance

/-- `e` is a best match for `p` in `pset`: a member whose path is a literal
string prefix of `p` of maximal length among all such members. -/
def isBestMatch (pset : List pathConfig) (p : Str) (e : pathConfig) : Prop :=
  e ∈ pset ∧ e.path <+: p ∧
    ∀ e' ∈ pset, e'.path <+: p → e'.path.length ≤ e.path.length

/-- The cache age `configure` ends up using when it is not rejected. -/
def cacheAgeOf (c : Config) : Int :=
  match c.cacheAge with
  | some n => n
  | none => 86400

/-! ### Concrete data used in counterexamples and witnesses -/

/-- An entry at `/ab`: its path is a literal—but not `/`-separated—prefix
of the request path `/abc`. -/
def entryLit : pathConfig := ⟨"/ab".toList, "R".toList, [], "git".toList⟩

/-- A handler state active before a failing reconfiguration. -/
def hC2prev : HandlerState :=
  ⟨"old.example".toList, "occ".toList, [⟨"/old".toList, "r".toList, [], "git".toList⟩]⟩

/-- A configuration whose single entry carries an unknown VCS `cvs`. -/
def cC2bad : Config :=
  ⟨"new.example".toList, none, none,
    [("/x".toList, ⟨"r".toList, "d".toList, "cvs".toList⟩)]⟩

/-- The entry `/a` of the end-to-end scenario. -/
def entryA : pathConfig := ⟨"/a".toList, "R1".toList, [], "git".toList⟩

/-- The entry `/a/b` of the end-to-end scenario. -/
def entryAB : pathConfig := ⟨"/a/b".toList, "R2".toList, [], "git".toList⟩

/-- The end-to-end snapshot `{/a ↦ R1 git, /a/b ↦ R2 git}`. -/
def demoSet : List pathConfig := [entryA, entryAB]

/-- A handler state holding the end-to-end snapshot. -/
def hDemo : HandlerState := ⟨[], "cc".toList, demoSet⟩

/-- A configuration with `cache_max_age = -1`. -/
def cC4neg : Config := ⟨[], none, some (-1), []⟩

/-- A configuration whose keys `/foo` and `/foo/` normalize to the same
path. -/
def cC5dup : Config :=
  ⟨[], none, none,
    [("/foo".toList, ⟨"ra".toList, "d".toList, "git".toList⟩),
     ("/foo/".toList, ⟨"rb".toList, "d".toList, "git".toList⟩)]⟩

/-- A configuration whose single entry has raw key `/` (normalizing to the
empty path) and an empty repo, with an explicitly valid VCS. -/
def cC6empty : Config :=
  ⟨[], none, none, [("/".toList, ⟨[], [], "git".toList⟩)]⟩

/-- A github-hosted path spec with no explicit `display` or `vcs`. -/
def sC7git : PathSpec := ⟨"https://github.com/o/r".toList, [], []⟩

/-- A fully explicit path spec used to exercise trailing-slash stripping. -/
def sC8 : PathSpec := ⟨"https://github.com/x/y".toList, "d".toList, "git".toList⟩

/-- A configuration with `fetch_interval = 0`. -/
def cC10 : Config := ⟨[], some 0, none, []⟩

/-! ### Order facts about `strLt` -/

theorem strLt_irrefl (s : Str) : strLt s s = false := by
  induction s with
  | nil => rfl
  | cons a as ih => simp [strLt, ih]

theorem strLt_trans : ∀ {a b c : Str},
    strLt a b = true → strLt b c = true → strLt a c = true
  | [], _ :: _, _ :: _, _, _ => rfl
  | a :: as, b :: bs, c :: cs, hab, hbc => by
    simp only [strLt] at hab hbc ⊢
    rcases lt_trichotomy a b with h1 | h1 | h1
    · rcases lt_trichotomy b c with h2 | h2 | h2
      · simp [lt_trans h1 h2]
      · subst h2
        simp [h1]
      · simp [h2, not_lt.mpr (le_of_lt h2)] at hbc
    · subst h1
      rcases lt_trichotomy a c with h2 | h2 | h2
      · simp [h2]
      · subst h2
        simp only [lt_irrefl, if_false] at hab hbc ⊢
        exact strLt_trans hab hbc
      · simp [h2, not_lt.mpr (le_of_lt h2)] at hbc
    · simp [h1, not_lt.mpr (le_of_lt h1)] at hab

theorem strLt_conn : ∀ {a b : Str},
    strLt a b = false → strLt b a = false → a = b
  | [], [], _, _ => rfl
  | [], _ :: _, h, _ => by simp [strLt] at h
  | _ :: _, [], _, h => by simp [strLt] at h
  | a :: as, b :: bs, hab, hba => by
    simp only [strLt] at hab hba
    split at hab
    · exact absurd hab (by simp)
    · split at hba
      · exact absurd hba (by simp)
      · rename_i h1 h2
        have : a = b := le_antisymm (not_lt.mp h2) (not_lt.mp h1)
        subst this
        simp only [lt_irrefl, if_false] at hab hba
        rw [strLt_conn hab hba]

theorem strLt_asymm {a b : Str} (h : strLt a b = true) : strLt b a = false := by
  by_contra hba
  have hba' : strLt b a = true := by
    cases hb : strLt b a
    · exact absurd hb hba
    · rfl
  have := strLt_trans h hba'
  rw [strLt_irrefl] at this
  exact absurd this (by simp)

theorem strLt_append_self : ∀ (q s : Str), strLt (q ++ s) q = false
  | [], s => by cases s <;> rfl
  | a :: q', s => by simp [strLt, strLt_append_self q' s]

/-- A string never compares strictly below one of its prefixes. -/
theorem strLt_false_of_pfx {q p : Str} (h : q <+: p) : strLt p q = false := by
  obtain ⟨t, ht⟩ := h
  rw [← ht]
  exact strLt_append_self q t

/-- Appending something nonempty strictly increases a string. -/
theorem strLt_append_right : ∀ (q : Str) {s : Str}, s ≠ [] → strLt q (q ++ s) = true
  | [], s, hs => by
    cases s with
    | nil => exact absurd rfl hs
    | cons c cs => rfl
  | a :: q', s, hs => by simp [strLt, strLt_append_right q' hs]

/-- A proper prefix compares strictly below the string. -/
theorem strLt_true_of_proper_pfx {q p : Str} (h : q <+: p) (hne : q ≠ p) :
    strLt q p = true := by
  obtain ⟨t, ht⟩ := h
  have ht' : t ≠ [] := by
    intro h0
    subst h0
    exact hne (by simpa using ht)
  rw [← ht]
  exact strLt_append_right q ht'

/-- Among prefixes of a common string, lexicographic order implies length
order: if `q2 ≤ q1` (no strict `q1 < q2`), then `q2` is at most as long. -/
theorem length_le_of_pfx_not_lt {q1 q2 p : Str} (h1 : q1 <+: p) (h2 : q2 <+: p)
    (hle : strLt q1 q2 = false) : q2.length ≤ q1.length := by
  by_contra hlen
  have hq : q1 <+: q2 := List.prefix_of_prefix_length_le h1 h2 (le_of_not_le hlen)
  have hne : q1 ≠ q2 := by
    intro heq
    exact hlen (by rw [heq])
  rw [strLt_true_of_proper_pfx hq hne] at hle
  exact absurd hle (by simp)

/-! ### Specification of the binary search -/

theorem sortSearchAux_spec (f : Nat → Bool) (n : Nat)
    (hmono : ∀ k l, k ≤ l → l < n → f k = true → f l = true) :
    ∀ (fuel i j : Nat), j - i ≤ fuel → i ≤ j → j ≤ n →
      (∀ k, k < i → f k = false) → (∀ k, j ≤ k → k < n → f k = true) →
      i ≤ sortSearchAux f fuel i j ∧ sortSearchAux f fuel i j ≤ j ∧
      (∀ k, k < sortSearchAux f fuel i j → f k = false) ∧
      (∀ k, sortSearchAux f fuel i j ≤ k → k < n → f k = true) := by
  intro fuel
  induction fuel with
  | zero =>
    intro i j hfuel hij hjn hlo hhi
    have : i = j := by omega
    subst this
    exact ⟨le_refl i, le_refl i, hlo, hhi⟩
  | succ fuel ih =>
    intro i j hfuel hij hjn hlo hhi
    by_cases hlt : i < j
    · have hm1 : i ≤ (i + j) / 2 := by omega
      have hm2 : (i + j) / 2 < j := by omega
      cases hf : f ((i + j) / 2) with
      | true =>
        have hhi' : ∀ k, (i + j) / 2 ≤ k → k < n → f k = true := fun k hk hkn =>
          hmono _ k hk hkn hf
        have hres := ih i ((i + j) / 2) (by omega) hm1 (by omega) hlo hhi'
        simpa [sortSearchAux, hlt, hf] using
          ⟨hres.1, le_trans hres.2.1 (le_of_lt hm2), hres.2.2⟩
      | false =>
        have hlo' : ∀ k, k < (i + j) / 2 + 1 → f k = false := by
          intro k hk
          cases hfk : f k with
          | false => rfl
          | true =>
            have := hmono k ((i + j) / 2) (by omega) (by omega) hfk
            rw [this] at hf
            exact absurd hf (by simp)
        have hres := ih ((i + j) / 2 + 1) j (by omega) (by omega) hjn hlo' hhi
        simpa [sortSearchAux, hlt, hf] using
          ⟨le_trans (by omega) hres.1, hres.2.1, hres.2.2⟩
    · have : i = j := by omega
      subst this
      simpa [sortSearchAux, hlt] using ⟨hlo, hhi⟩

theorem sortSearch_spec (f : Nat → Bool) (n : Nat)
    (hmono : ∀ k l, k ≤ l → l < n → f k = true → f l = true) :
    sortSearch n f ≤ n ∧
    (∀ k, k < sortSearch n f → f k = false) ∧
    (∀ k, sortSearch n f ≤ k → k < n → f k = true) := by
  have h := sortSearchAux_spec f n hmono n 0 n (by omega) (by omega) (le_refl n)
    (by omega) (by omega)
  exact ⟨h.2.1, h.2.2.1, h.2.2.2⟩

/-! ### Indexing helpers -/

theorem pathAt_eq (pset : List pathConfig) (k : Nat) (hk : k < pset.length) :
    pathAt pset k = (pset.get ⟨k, hk⟩).path := by
  simp [pathAt, List.getElem?_eq_getElem hk]

theorem getElem?_eq_some_get (pset : List pathConfig) (k : Nat) (hk : k < pset.length) :
    pset[k]? = some (pset.get ⟨k, hk⟩) := by
  simp [List.getElem?_eq_getElem hk]

/-- Strictly sorted entries: the path at a smaller index compares strictly
below the path at a larger one. -/
theorem sorted_pathAt_lt {pset : List pathConfig}
    (hs : List.Pairwise (fun a b => strLt a.path b.path = true) pset)
    {k l : Nat} (hkl : k < l) (hl : l < pset.length) :
    strLt (pathAt pset k) (pathAt pset l) = true := by
  rw [pathAt_eq pset k (lt_trans hkl hl), pathAt_eq pset l hl]
  exact List.pairwise_iff_get.mp hs ⟨k, lt_trans hkl hl⟩ ⟨l, hl⟩ hkl

/-! ### Specification of the slow-path scan -/

theorem slowLoop_spec (p : Str) :
    ∀ (l : List pathConfig) (best : Option pathConfig) (subpath : Str) (lenS : Nat),
      (best = none → subpath = [] ∧ lenS = p.length) →
      (∀ b, best = some b → goodCand p b ∧ subpath = p.drop b.path.length ∧
        lenS = p.length - b.path.length) →
      ((slowLoop p l best subpath lenS).1 = none →
        best = none ∧ ∀ e ∈ l, ¬ goodCand p e) ∧
      (∀ b, (slowLoop p l best subpath lenS).1 = some b →
        goodCand p b ∧ (slowLoop p l best subpath lenS).2 = p.drop b.path.length ∧
        (b ∈ l ∨ best = some b) ∧
        (∀ e ∈ l, goodCand p e → e.path.length ≤ b.path.length) ∧
        (∀ b0, best = some b0 → b0.path.length ≤ b.path.length)) := by
  intro l
  induction l with
  | nil =>
    intro best subpath lenS hnone hsome
    constructor
    · intro hres
      simp only [slowLoop] at hres
      exact ⟨hres, by simp⟩
    · intro b hres
      simp only [slowLoop] at hres
      have h := hsome b hres
      exact ⟨h.1, h.2.1, Or.inr hres, by simp, fun b0 hb0 => by
        rw [hres] at hb0
        cases hb0
        exact le_refl _⟩
  | cons ps rest ih =>
    intro best subpath lenS hnone hsome
    have hlenS_le : lenS ≤ p.length := by
      cases hbest : best with
      | none => exact le_of_eq (hnone hbest).2
      | some b => exact le_trans (le_of_eq (hsome b hbest).2.2) (by omega)
    by_cases hskip : p.length ≤ ps.path.length
    · -- entry at least as long as the request path: skipped
      have hnc : ¬ goodCand p ps := fun hg => absurd hg.2.1 (not_lt.mpr hskip)
      have heq : slowLoop p (ps :: rest) best subpath lenS =
          slowLoop p rest best subpath lenS := by
        simp [slowLoop, hskip]
      rw [heq]
      have h := ih best subpath lenS hnone hsome
      refine ⟨fun hres => ?_, fun b hres => ?_⟩
      · have h1 := h.1 hres
        exact ⟨h1.1, by
          intro e he
          rcases List.mem_cons.mp he with rfl | he'
          · exact hnc
          · exact h1.2 e he'⟩
      · have h2 := h.2 b hres
        refine ⟨h2.1, h2.2.1, ?_, ?_, h2.2.2.2.2⟩
        · rcases h2.2.2.1 with hm | hm
          · exact Or.inl (List.mem_cons_of_mem ps hm)
          · exact Or.inr hm
        · intro e he hg
          rcases List.mem_cons.mp he with rfl | he'
          · exact absurd hg hnc
          · exact h2.2.2.2.1 e he' hg
    · push_neg at hskip
      by_cases hpfx : ps.path <+: p
      · -- a literal prefix shorter than the path
        have htp : trimPrefix p ps.path = p.drop ps.path.length := by
          simp [trimPrefix, hpfx]
        have htplen : (trimPrefix p ps.path).length = p.length - ps.path.length := by
          simp [htp]
        by_cases himp : (trimPrefix p ps.path).length < lenS
        · -- strict improvement: ps becomes the new best
          have hg : goodCand p ps := by
            refine ⟨hpfx, hskip, ?_⟩
            intro h0
            cases hbest : best with
            | none =>
              rw [(hnone hbest).2, htplen, h0] at himp
              simp at himp
            | some b =>
              rw [(hsome b hbest).2.2, htplen, h0] at himp
              simp at himp
              have := (hsome b hbest).1.2.1
              omega
          have heq : slowLoop p (ps :: rest) best subpath lenS =
              slowLoop p rest (some ps) (trimPrefix p ps.path)
                (trimPrefix p ps.path).length := by
            simp [slowLoop, not_le.mpr hskip, himp]
          rw [heq]
          have hsome' : ∀ b, some ps = some b → goodCand p b ∧
              trimPrefix p ps.path = p.drop b.path.length ∧
              (trimPrefix p ps.path).length = p.length - b.path.length := by
            intro b hb
            cases hb
            exact ⟨hg, htp, htplen⟩
          have h := ih (some ps) (trimPrefix p ps.path) (trimPrefix p ps.path).length
            (by simp) hsome'
          refine ⟨fun hres => absurd ((h.1 hres).1) (by simp), fun b hres => ?_⟩
          have h2 := h.2 b hres
          have hps_le_b : ps.path.length ≤ b.path.length := h2.2.2.2.2 ps rfl
          have hold_le : ∀ b0, best = some b0 → b0.path.length ≤ b.path.length := by
            intro b0 hb0
            have hb0g := hsome b0 hb0
            have : p.length - ps.path.length < p.length - b0.path.length := by
              rw [← htplen, ← hb0g.2.2]
              exact himp
            have hb0lt := hb0g.1.2.1
            omega
          refine ⟨h2.1, h2.2.1, ?_, ?_, hold_le⟩
          · rcases h2.2.2.1 with hm | hm
            · exact Or.inl (List.mem_cons_of_mem ps hm)
            · cases hm
              exact Or.inl (List.mem_cons_self ps rest)
          · intro e he hg'
            rcases List.mem_cons.mp he with rfl | he'
            · exact hps_le_b
            · exact h2.2.2.2.1 e he' hg'
        · -- no improvement: the current best is at least as long
          have heq : slowLoop p (ps :: rest) best subpath lenS =
              slowLoop p rest best subpath lenS := by
            simp [slowLoop, not_le.mpr hskip, himp]
          rw [heq]
          have h := ih best subpath lenS hnone hsome
          have hps_bound : ∀ b0, best = some b0 → goodCand p ps →
              ps.path.length ≤ b0.path.length := by
            intro b0 hb0 hgps
            have hb0g := hsome b0 hb0
            rw [htplen, hb0g.2.2] at himp
            have := hb0g.1.2.1
            omega
          have hnone_ps : best = none → ¬ goodCand p ps := by
            intro hbest hgps
            rw [htplen, (hnone hbest).2] at himp
            have : ps.path.length ≠ 0 := by
              intro h0
              exact hgps.2.2 (List.length_eq_zero.mp h0)
            omega
          refine ⟨fun hres => ?_, fun b hres => ?_⟩
          · have h1 := h.1 hres
            refine ⟨h1.1, ?_⟩
            intro e he
            rcases List.mem_cons.mp he with rfl | he'
            · exact hnone_ps h1.1
            · exact h1.2 e he'
          · have h2 := h.2 b hres
            refine ⟨h2.1, h2.2.1, ?_, ?_, h2.2.2.2.2⟩
            · rcases h2.2.2.1 with hm | hm
              · exact Or.inl (List.mem_cons_of_mem ps hm)
              · exact Or.inr hm
            · intro e he hg'
              rcases List.mem_cons.mp he with rfl | he'
              · rcases h2.2.2.1 with hm | hm
                · cases hbest : best with
                  | none => exact absurd hg' (hnone_ps hbest)
                  | some b0 =>
                    exact le_trans (hps_bound b0 hbest hg') (h2.2.2.2.2 b0 hbest)
                · exact hps_bound b hm hg'
              · exact h2.2.2.2.1 e he' hg'
      · -- not a prefix: `TrimPrefix` leaves `p` unchanged, no improvement
        have htp : trimPrefix p ps.path = p := by
          simp [trimPrefix, hpfx]
        have himp : ¬ (trimPrefix p ps.path).length < lenS := by
          rw [htp]
          omega
        have hnc : ¬ goodCand p ps := fun hgc => absurd hgc.1 hpfx
        have heq : slowLoop p (ps :: rest) best subpath lenS =
            slowLoop p rest best subpath lenS := by
          simp [slowLoop, not_le.mpr hskip, himp]
        rw [heq]
        have h := ih best subpath lenS hnone hsome
        refine ⟨fun hres => ?_, fun b hres => ?_⟩
        · have h1 := h.1 hres
          refine ⟨h1.1, ?_⟩
          intro e he
          rcases List.mem_cons.mp he with rfl | he'
          · exact hnc
          · exact h1.2 e he'
        · have h2 := h.2 b hres
          refine ⟨h2.1, h2.2.1, ?_, ?_, h2.2.2.2.2⟩
          · rcases h2.2.2.1 with hm | hm
            · exact Or.inl (List.mem_cons_of_mem ps hm)
            · exact Or.inr hm
          · intro e he hg'
            rcases List.mem_cons.mp he with rfl | he'
            · exact absurd hg' hnc
            · exact h2.2.2.2.1 e he' hg'

/-! ### Characterization of `find` -/

/-- In a strictly path-sorted entry list, entries are determined by their
paths. -/
theorem eq_of_path_eq_of_sorted {pset : List pathConfig}
    (hs : List.Pairwise (fun a b => strLt a.path b.path = true) pset) :
    ∀ {e e' : pathConfig}, e ∈ pset → e' ∈ pset → e.path = e'.path → e = e' := by
  induction pset with
  | nil => intro e e' he _ _; exact absurd he (List.not_mem_nil e)
  | cons a l ih =>
    intro e e' he he' hpeq
    have ha := List.pairwise_cons.mp hs
    rcases List.mem_cons.mp he with rfl | he1
    · rcases List.mem_cons.mp he' with rfl | he1'
      · rfl
      · have := ha.1 e' he1'
        rw [hpeq, strLt_irrefl] at this
        exact absurd this (by simp)
    · rcases List.mem_cons.mp he' with rfl | he1'
      · have := ha.1 e he1
        rw [hpeq, strLt_irrefl] at this
        exact absurd this (by simp)
      · exact ih ha.2 he1 he1' hpeq

/-- The best match is unique in a strictly path-sorted entry list. -/
theorem isBestMatch_unique {pset : List pathConfig} {p : Str}
    (hs : List.Pairwise (fun a b => strLt a.path b.path = true) pset)
    {e e' : pathConfig} (h : isBestMatch pset p e) (h' : isBestMatch pset p e') :
    e = e' := by
  have hlen : e.path.length = e'.path.length :=
    le_antisymm (h'.2.2 e h.1 h.2.1) (h.2.2 e' h'.1 h'.2.1)
  have hp : e.path <+: e'.path :=
    List.prefix_of_prefix_length_le h.2.1 h'.2.1 (le_of_eq hlen)
  exact eq_of_path_eq_of_sorted hs h.1 h'.1 (hp.eq_of_length hlen)

/-- For every strictly path-sorted entry list with nonempty paths,
`pathConfigSet.find` returns exactly the unique longest-literal-prefix
entry, and `none` exactly when no entry path is a literal prefix of the
request path. -/
theorem find_best_spec (pset : List pathConfig) (p : Str)
    (hs : List.Pairwise (fun a b => strLt a.path b.path = true) pset)
    (hne : ∀ e ∈ pset, e.path ≠ []) :
    (∀ e, (find pset p).1 = some e ↔ isBestMatch pset p e) ∧
    ((find pset p).1 = none ↔ ∀ e ∈ pset, ¬ e.path <+: p) := by
  have hmono : ∀ k l, k ≤ l → l < pset.length →
      strGe (pathAt pset k) p = true → strGe (pathAt pset l) p = true := by
    intro k l hkl hln hfk
    simp only [strGe, Bool.not_eq_true'] at hfk ⊢
    rcases eq_or_lt_of_le hkl with rfl | hlt
    · exact hfk
    · cases hc : strLt (pathAt pset l) p with
      | false => rfl
      | true =>
        have := strLt_trans (sorted_pathAt_lt hs hlt hln) hc
        rw [hfk] at this
        exact absurd this (by simp)
  obtain ⟨hile, hlo, hhi⟩ :=
    sortSearch_spec (fun k => strGe (pathAt pset k) p) pset.length hmono
  set i := sortSearch pset.length (fun k => strGe (pathAt pset k) p) with hidef
  have hlo' : ∀ k, k < i → strLt (pathAt pset k) p = true := by
    intro k hk
    have := hlo k hk
    simpa [strGe] using this
  have hhi' : ∀ k, i ≤ k → k < pset.length → strLt (pathAt pset k) p = false := by
    intro k hk hkn
    have := hhi k hk hkn
    simpa [strGe, Bool.not_eq_true'] using this
  have hfind : find pset p =
      if i < pset.length ∧ pathAt pset i = p then (pset[i]?, ([] : Str))
      else if 0 < i ∧ (pathAt pset (i - 1) ++ ['/']) <+: p then
        (pset[i - 1]?, p.drop ((pathAt pset (i - 1)).length + 1))
      else slowLoop p (pset.take i) none [] p.length := by
    rw [hidef]
    rfl
  by_cases hex : i < pset.length ∧ pathAt pset i = p
  · -- exact-match fast path
    have hres : find pset p = (some (pset.get ⟨i, hex.1⟩), []) := by
      rw [hfind, if_pos hex, getElem?_eq_some_get pset i hex.1]
    have hpath : (pset.get ⟨i, hex.1⟩).path = p := by
      rw [← pathAt_eq pset i hex.1]
      exact hex.2
    have hbest : isBestMatch pset p (pset.get ⟨i, hex.1⟩) := by
      refine ⟨List.get_mem pset i hex.1, by rw [hpath], ?_⟩
      intro e' _ hpre
      rw [hpath]
      exact hpre.length_le
    constructor
    · intro e
      constructor
      · intro hsome
        rw [hres] at hsome
        cases hsome
        exact hbest
      · intro hb
        rw [hres]
        exact congrArg some (isBestMatch_unique hs hbest hb)
    · constructor
      · intro hnone
        rw [hres] at hnone
        exact absurd hnone (by simp)
      · intro hall
        exact absurd hbest.2.1 (hall _ hbest.1)
  · -- no exact match anywhere
    have hnoexact : ∀ k, (hk : k < pset.length) → (pset.get ⟨k, hk⟩).path ≠ p := by
      intro k hk heq
      rcases lt_or_ge k i with hki | hki
      · have := hlo' k hki
        rw [pathAt_eq pset k hk, heq, strLt_irrefl] at this
        exact absurd this (by simp)
      · rcases eq_or_lt_of_le hki with hki0 | hki'
        · refine hex ⟨?_, ?_⟩
          · rw [hki0]
            exact hk
          · rw [hki0, pathAt_eq pset k hk]
            exact heq
        · have hlt := sorted_pathAt_lt hs hki' hk
          rw [pathAt_eq pset k hk, heq] at hlt
          have hik : i < pset.length := lt_trans hki' hk
          have := hhi' i (le_refl i) hik
          -- path_i < p yet path_i ≥ p
          rw [this] at hlt
          exact absurd hlt (by simp)
    have hcand_lt : ∀ k, (hk : k < pset.length) →
        (pset.get ⟨k, hk⟩).path <+: p → k < i := by
      intro k hk hpre
      by_contra hge
      have := hhi' k (le_of_not_lt hge) hk
      rw [pathAt_eq pset k hk] at this
      have hne' : (pset.get ⟨k, hk⟩).path ≠ p := hnoexact k hk
      rw [strLt_true_of_proper_pfx hpre hne'] at this
      exact absurd this (by simp)
    by_cases hfast : 0 < i ∧ (pathAt pset (i - 1) ++ ['/']) <+: p
    · -- parent-prefix fast path
      have him : i - 1 < pset.length := by omega
      have hres : find pset p =
          (some (pset.get ⟨i - 1, him⟩), p.drop ((pathAt pset (i - 1)).length + 1)) := by
        rw [hfind, if_neg hex, if_pos hfast, getElem?_eq_some_get pset (i - 1) him]
      have hpre1 : (pset.get ⟨i - 1, him⟩).path <+: p := by
        rw [← pathAt_eq pset (i - 1) him]
        exact (List.prefix_append (pathAt pset (i - 1)) ['/']).trans hfast.2
      have hbest : isBestMatch pset p (pset.get ⟨i - 1, him⟩) := by
        refine ⟨List.get_mem pset (i - 1) him, hpre1, ?_⟩
        intro e' he' hpre'
        obtain ⟨⟨k, hk⟩, hkeq⟩ := List.mem_iff_get.mp he'
        have hki : k < i := hcand_lt k hk (by rw [hkeq]; exact hpre')
        rcases eq_or_lt_of_le (Nat.le_sub_one_of_lt hki) with hkeq' | hklt
        · rw [← hkeq]
          have : (⟨k, hk⟩ : Fin pset.length) = ⟨i - 1, him⟩ := Fin.ext hkeq'
          rw [this]
        · have hlt := sorted_pathAt_lt hs hklt him
          have hle := strLt_asymm hlt
          rw [pathAt_eq pset k hk, pathAt_eq pset (i - 1) him] at hle
          rw [← hkeq]
          exact length_le_of_pfx_not_lt hpre1 (by rw [hkeq]; exact hpre') hle
      constructor
      · intro e
        constructor
        · intro hsome
          rw [hres] at hsome
          cases hsome
          exact hbest
        · intro hb
          rw [hres]
          exact congrArg some (isBestMatch_unique hs hbest hb)
      · constructor
        · intro hnone
          rw [hres] at hnone
          exact absurd hnone (by simp)
        · intro hall
          exact absurd hbest.2.1 (hall _ hbest.1)
    · -- slow-path scan over the entries before the search position
      have hres : find pset p = slowLoop p (pset.take i) none [] p.length := by
        rw [hfind, if_neg hex, if_neg hfast]
      have hsl := slowLoop_spec p (pset.take i) none [] p.length
        (fun _ => ⟨rfl, rfl⟩) (fun b hb => by cases hb)
      have htlen : (pset.take i).length = i := by
        rw [List.length_take]
        omega
      -- every candidate lies in `pset.take i` and is a good candidate
      have hcand_good : ∀ e' ∈ pset, e'.path <+: p →
          e' ∈ pset.take i ∧ goodCand p e' := by
        intro e' he' hpre'
        obtain ⟨⟨k, hk⟩, hkeq⟩ := List.mem_iff_get.mp he'
        have hki : k < i := hcand_lt k hk (by rw [hkeq]; exact hpre')
        have hmem : e' ∈ pset.take i := by
          have hk' : k < (pset.take i).length := by omega
          have : (pset.take i).get ⟨k, hk'⟩ = pset.get ⟨k, hk⟩ := List.get_take' pset
          rw [← hkeq, ← this]
          exact List.get_mem (pset.take i) k hk'
        have hglen : e'.path.length < p.length := by
          rcases lt_or_eq_of_le hpre'.length_le with hl | hl
          · exact hl
          · exfalso
            apply hnoexact k hk
            rw [hkeq]
            exact hpre'.eq_of_length hl
        exact ⟨hmem, hpre', hglen, hne e' he'⟩
      have hgood_cand : ∀ e' ∈ pset.take i, goodCand p e' →
          e' ∈ pset ∧ e'.path <+: p := by
        intro e' he' hg
        exact ⟨List.take_subset i pset he', hg.1⟩
      constructor
      · intro e
        constructor
        · intro hsome
          rw [hres] at hsome
          have h2 := hsl.2 e hsome
          have hmem : e ∈ pset := by
            rcases h2.2.2.1 with hm | hm
            · exact List.take_subset i pset hm
            · cases hm
          refine ⟨hmem, h2.1.1, ?_⟩
          intro e' he' hpre'
          have hc := hcand_good e' he' hpre'
          exact h2.2.2.2.1 e' hc.1 hc.2
        · intro hb
          cases hfr : (find pset p).1 with
          | some b =>
            have h2 := hsl.2 b (by rw [← hres]; exact hfr)
            have hmemb : b ∈ pset := by
              rcases h2.2.2.1 with hm | hm
              · exact List.take_subset i pset hm
              · cases hm
            have hbestb : isBestMatch pset p b := by
              refine ⟨hmemb, h2.1.1, ?_⟩
              intro e' he' hpre'
              have hc := hcand_good e' he' hpre'
              exact h2.2.2.2.1 e' hc.1 hc.2
            exact congrArg some (isBestMatch_unique hs hbestb hb)
          | none =>
            have h1 := hsl.1 (by rw [← hres]; exact hfr)
            have hc := hcand_good e hb.1 hb.2.1
            exact absurd hc.2 (h1.2 e hc.1)
      · constructor
        · intro hnone
          rw [hres] at hnone
          have h1 := hsl.1 hnone
          intro e' he' hpre'
          have hc := hcand_good e' he' hpre'
          exact h1.2 e' hc.1 hc.2
        · intro hall
          cases hfr : (find pset p).1 with
          | some b =>
            have h2 := hsl.2 b (by rw [← hres]; exact hfr)
            have hmemb : b ∈ pset := by
              rcases h2.2.2.1 with hm | hm
              · exact List.take_subset i pset hm
              · cases hm
            exact absurd h2.1.1 (hall b hmemb)
          | none => rfl

/-! ### Facts about `compileEntry`, `configureLoop` and `configure` -/

theorem compileEntry_ok_path {key : Str} {e : PathSpec} {pc : pathConfig}
    (h : compileEntry key e = Except.ok pc) : pc.path = trimSuffix key ['/'] := by
  unfold compileEntry at h
  split_ifs at h <;> simp_all <;> rw [← h]

theorem compileEntry_ok_vcs {key : Str} {e : PathSpec} {pc : pathConfig}
    (h : compileEntry key e = Except.ok pc) :
    pc.vcs = "bzr".toList ∨ pc.vcs = "git".toList ∨ pc.vcs = "hg".toList ∨
      pc.vcs = "svn".toList := by
  unfold compileEntry at h
  split_ifs at h <;> simp at h <;> subst h <;> tauto

theorem compileEntry_err_ne {key : Str} {e : PathSpec} {err : ConfigError}
    (h : compileEntry key e = Except.error err) :
    err ≠ ConfigError.negativeCacheAge := by
  unfold compileEntry at h
  split_ifs at h <;> simp_all <;> (intro hc; rw [hc] at h; exact absurd h (by simp))

theorem configureLoop_host_cc :
    ∀ (l : List (Str × PathSpec)) (h : HandlerState),
      (configureLoop h l).1.host = h.host ∧
      (configureLoop h l).1.cacheControl = h.cacheControl := by
  intro l
  induction l with
  | nil => intro h; simp [configureLoop]
  | cons kv rest ih =>
    intro h
    obtain ⟨key, e⟩ := kv
    simp only [configureLoop]
    cases hc : compileEntry key e with
    | error err => simp
    | ok pc => exact ih { h with paths := h.paths ++ [pc] }

theorem configureLoop_err_ne :
    ∀ (l : List (Str × PathSpec)) (h : HandlerState) (err : ConfigError),
      (configureLoop h l).2 = some err → err ≠ ConfigError.negativeCacheAge := by
  intro l
  induction l with
  | nil => intro h err he; simp [configureLoop] at he
  | cons kv rest ih =>
    intro h err he
    obtain ⟨key, e⟩ := kv
    simp only [configureLoop] at he
    cases hc : compileEntry key e with
    | error err' =>
      rw [hc] at he
      simp at he
      rw [← he]
      exact compileEntry_err_ne hc
    | ok pc =>
      rw [hc] at he
      exact ih { h with paths := h.paths ++ [pc] } err he

theorem configureLoop_ok :
    ∀ (l : List (Str × PathSpec)) (h h' : HandlerState),
      configureLoop h l = (h', none) →
      ∃ tail, h'.paths = sortPaths (h.paths ++ tail) ∧
        List.Forall₂ (fun kv pc => compileEntry kv.1 kv.2 = Except.ok pc) l tail := by
  intro l
  induction l with
  | nil =>
    intro h h' he
    simp only [configureLoop] at he
    injection he with h1 h2
    refine ⟨[], ?_, List.Forall₂.nil⟩
    rw [← h1]
    simp
  | cons kv rest ih =>
    intro h h' he
    obtain ⟨key, e⟩ := kv
    simp only [configureLoop] at he
    cases hc : compileEntry key e with
    | error err =>
      rw [hc] at he
      simp at he
    | ok pc =>
      rw [hc] at he
      obtain ⟨tail, hpaths, hfa⟩ := ih { h with paths := h.paths ++ [pc] } h' he
      refine ⟨pc :: tail, ?_, List.Forall₂.cons hc hfa⟩
      simpa [List.append_assoc] using hpaths

theorem configureLoop_ok_entries :
    ∀ (l : List (Str × PathSpec)) (h h' : HandlerState),
      configureLoop h l = (h', none) →
      ∀ kv ∈ l, ∃ pc, compileEntry kv.1 kv.2 = Except.ok pc := by
  intro l
  induction l with
  | nil => intro h h' _ kv hkv; exact absurd hkv (List.not_mem_nil kv)
  | cons kv0 rest ih =>
    intro h h' he kv hkv
    obtain ⟨key, e⟩ := kv0
    simp only [configureLoop] at he
    cases hc : compileEntry key e with
    | error err =>
      rw [hc] at he
      simp at he
    | ok pc =>
      rw [hc] at he
      rcases List.mem_cons.mp hkv with rfl | hkv'
      · exact ⟨pc, hc⟩
      · exact ih { h with paths := h.paths ++ [pc] } h' he kv hkv'

theorem configure_ok_loop {h : HandlerState} {c : Config} {h' : HandlerState}
    (he : configure h c = (h', none)) :
    configureLoop
      { host := c.host, cacheControl := cacheControlString (cacheAgeOf c), paths := [] }
      c.paths = (h', none) := by
  obtain ⟨chost, cfi, cca, cpaths⟩ := c
  cases cca with
  | none => simpa [configure, cacheAgeOf] using he
  | some n =>
    by_cases hn : n < 0
    · rw [show configure h ⟨chost, cfi, some n, cpaths⟩ =
          (h, some ConfigError.negativeCacheAge) from by simp [configure, hn]] at he
      exact absurd (congrArg Prod.snd he) (by simp)
    · simpa [configure, cacheAgeOf, hn] using he

theorem configure_ok_entries {h : HandlerState} {c : Config} {h' : HandlerState}
    (he : configure h c = (h', none)) :
    ∀ kv ∈ c.paths, ∃ pc, compileEntry kv.1 kv.2 = Except.ok pc :=
  configureLoop_ok_entries c.paths _ h' (configure_ok_loop he)

theorem forall₂_mem_right {α β : Type} {R : α → β → Prop} :
    ∀ {l : List α} {l' : List β}, List.Forall₂ R l l' → ∀ b ∈ l', ∃ a ∈ l, R a b := by
  intro l l' h
  induction h with
  | nil => intro b hb; exact absurd hb (List.not_mem_nil b)
  | cons hr _ ih =>
    intro b hb
    rcases List.mem_cons.mp hb with rfl | hb'
    · exact ⟨_, List.mem_cons_self _ _, hr⟩
    · obtain ⟨a, ha, har⟩ := ih b hb'
      exact ⟨a, List.mem_cons_of_mem _ ha, har⟩

/-! ### Facts about the sorting pass -/

theorem pcLe_total {a b : pathConfig} (h : pcLe a b = false) : pcLe b a = true := by
  simp only [pcLe, Bool.not_eq_false'] at h
  simp only [pcLe, Bool.not_eq_true']
  exact strLt_asymm h

theorem pcLe_trans {a b c : pathConfig} (hab : pcLe a b = true) (hbc : pcLe b c = true) :
    pcLe a c = true := by
  simp only [pcLe, Bool.not_eq_true'] at hab hbc ⊢
  cases hca : strLt c.path a.path with
  | false => rfl
  | true =>
    cases hcb : strLt b.path c.path with
    | true =>
      have := strLt_trans hcb hca
      rw [this] at hab
      exact absurd hab (by simp)
    | false =>
      have hbc' : c.path = b.path := strLt_conn hbc hcb
      rw [hbc'] at hca
      rw [hca] at hab
      exact absurd hab (by simp)

theorem insertSorted_perm (a : pathConfig) :
    ∀ l : List pathConfig, (insertSorted a l).Perm (a :: l) := by
  intro l
  induction l with
  | nil => simp [insertSorted]
  | cons b l ih =>
    simp only [insertSorted]
    by_cases h : pcLe a b = true
    · rw [if_pos h]
    · rw [if_neg h]
      exact List.Perm.trans (List.Perm.cons b ih) (List.Perm.swap a b l)

theorem mem_insertSorted {a x : pathConfig} {l : List pathConfig}
    (h : x ∈ insertSorted a l) : x = a ∨ x ∈ l := by
  have := (insertSorted_perm a l).mem_iff.mp h
  simpa using this

theorem pairwise_insertSorted {a : pathConfig} {l : List pathConfig}
    (hs : List.Pairwise (fun x y => pcLe x y = true) l) :
    List.Pairwise (fun x y => pcLe x y = true) (insertSorted a l) := by
  induction l with
  | nil => simp [insertSorted]
  | cons b l ih =>
    have hb := List.pairwise_cons.mp hs
    simp only [insertSorted]
    by_cases h : pcLe a b = true
    · rw [if_pos h]
      refine List.pairwise_cons.mpr ⟨?_, hs⟩
      intro x hx
      rcases List.mem_cons.mp hx with rfl | hx'
      · exact h
      · exact pcLe_trans h (hb.1 x hx')
    · rw [if_neg h]
      refine List.pairwise_cons.mpr ⟨?_, ih hb.2⟩
      intro x hx
      rcases mem_insertSorted hx with rfl | hx'
      · exact pcLe_total (by simpa using h)
      · exact hb.1 x hx'

theorem sortPaths_perm : ∀ l : List pathConfig, (sortPaths l).Perm l := by
  intro l
  induction l with
  | nil => simp [sortPaths]
  | cons a l ih =>
    exact List.Perm.trans (insertSorted_perm a (sortPaths l)) (List.Perm.cons a ih)

theorem sortPaths_sorted : ∀ l : List pathConfig,
    List.Pairwise (fun x y => pcLe x y = true) (sortPaths l) := by
  intro l
  induction l with
  | nil => simp [sortPaths]
  | cons a l ih => exact pairwise_insertSorted ih

/-- The compiled entries carry exactly the normalized raw keys as paths. -/
theorem forall₂_map_path {l : List (Str × PathSpec)} {tail : List pathConfig}
    (h : List.Forall₂ (fun kv pc => compileEntry kv.1 kv.2 = Except.ok pc) l tail) :
    tail.map pathConfig.path = l.map fun kv => trimSuffix kv.1 ['/'] := by
  induction h with
  | nil => rfl
  | cons hr _ ih => simp [ih, compileEntry_ok_path hr]

/-! ### `find` on a singleton entry set -/

theorem find_singleton_self (pc : pathConfig) : find [pc] pc.path = (some pc, []) := by
  simp [find, sortSearch, sortSearchAux, pathAt, strGe, strLt_irrefl]

theorem find_singleton_slash (pc : pathConfig) (rest : Str) :
    find [pc] (pc.path ++ '/' :: rest) = (some pc, rest) := by
  have h1 : strLt pc.path (pc.path ++ '/' :: rest) = true :=
    strLt_append_right pc.path (by simp)
  have h2 : (pc.path ++ ['/']) <+: (pc.path ++ '/' :: rest) := ⟨rest, by simp⟩
  have h3 : (pc.path ++ '/' :: rest).drop (pc.path.length + 1) = rest := by
    have hsplit : pc.path ++ '/' :: rest = (pc.path ++ ['/']) ++ rest := by simp
    have hlen : (pc.path ++ ['/']).length = pc.path.length + 1 := by simp
    rw [hsplit, ← hlen, List.drop_left]
  have h4 : pc.path ≠ pc.path ++ '/' :: rest := by
    intro hcontra
    have := congrArg List.length hcontra
    simp at this
  simp [find, sortSearch, sortSearchAux, pathAt, strGe, h1, h2, h3, h4]

/-! ### The refresh loop never changes its interval -/

theorem refreshRun_interval :
    ∀ (fi : Int) (h : HandlerState) (rs : List (Option Config)) (x : Int × HandlerState),
      x ∈ refreshRun fi h rs → x.1 = fi := by
  intro fi h rs
  induction rs generalizing h with
  | nil => intro x hx; simp [refreshRun] at hx
  | cons r rs ih =>
    intro x hx
    simp only [refreshRun] at hx
    rcases List.mem_cons.mp hx with rfl | hx'
    · rfl
    · exact ih _ x hx'

/-! ### Claim C1 -/

/-- C1 counterexample: for the sorted, duplicate-free, nonempty-path entry
set `[/ab]` and request path `/abc`, `find` returns the `/ab` entry even
though `/ab ≠ /abc` and `/abc` does not start with `/ab/` — so the claimed
candidate set is empty yet the resolver does not return none. -/
theorem C1_counterexample :
    List.Pairwise (fun a b => strLt a.path b.path = true) [entryLit] ∧
    (∀ e ∈ [entryLit], e.path ≠ []) ∧
    (find [entryLit] "/abc".toList).1 = some entryLit ∧
    ¬ (entryLit.path = "/abc".toList ∨ (entryLit.path ++ ['/']) <+: "/abc".toList) := by
  exact ⟨by simp, by decide, by decide, by decide⟩

/-- C1 (amended): for every strictly path-sorted (hence duplicate-free)
entry set whose paths are nonempty and every request path `p`, `find`
returns exactly the unique entry whose path is the longest literal string
prefix of `p` (no `/` separator is required after the matched path), and
returns none exactly when no entry path is a literal prefix of `p`. -/
theorem C1_resolver_longest_prefix (pset : List pathConfig) (p : Str)
    (hs : List.Pairwise (fun a b => strLt a.path b.path = true) pset)
    (hne : ∀ e ∈ pset, e.path ≠ []) :
    (∀ e, (find pset p).1 = some e ↔ isBestMatch pset p e) ∧
    ((find pset p).1 = none ↔ ∀ e ∈ pset, ¬ e.path <+: p) :=
  find_best_spec pset p hs hne

/-- C1 witness: the amended characterization evaluated on the concrete
entry set `[/ab]` and request path `/abc`. -/
theorem C1_witness :
    (∀ e, (find [entryLit] "/abc".toList).1 = some e ↔
      isBestMatch [entryLit] "/abc".toList e) ∧
    ((find [entryLit] "/abc".toList).1 = none ↔
      ∀ e ∈ [entryLit], ¬ e.path <+: "/abc".toList) :=
  C1_resolver_longest_prefix [entryLit] "/abc".toList (by simp) (by decide)

/-! ### Claim C3 -/

/-- C3 counterexample: on the snapshot `{/a, /a/b}`, resolving `/a/x`
yields entry `/a` with subpath `/x` (the slow path keeps the leading
slash), not subpath `x` as claimed. -/
theorem C3_counterexample :
    find demoSet "/a/x".toList = (some entryA, "/x".toList) ∧
    "/x".toList ≠ "x".toList := by
  exact ⟨by decide, by decide⟩

/-- C3 (amended): on the snapshot `{/a ↦ R1 git, /a/b ↦ R2 git}`,
`/a/b/c` resolves to `/a/b` with subpath `c`; `/a/x` resolves to `/a`
with subpath `/x` (not `x`); `/z` resolves to none and is answered
not-found; and the unmatched request `/` is answered with the index
listing rather than not-found. -/
theorem C3_end_to_end :
    find demoSet "/a/b/c".toList = (some entryAB, "c".toList) ∧
    find demoSet "/a/x".toList = (some entryA, "/x".toList) ∧
    (find demoSet "/z".toList).1 = none ∧
    serveHTTP hDemo "example.org".toList "/z".toList = Response.notFound ∧
    (find hDemo.paths "/".toList).1 = none ∧
    serveHTTP hDemo "example.org".toList "/".toList =
      Response.index "example.org".toList
        ["example.org/a".toList, "example.org/a/b".toList] := by
  exact ⟨by decide, by decide, by decide, by decide, by decide, by decide⟩

/-! ### Claim C4 -/

/-- C4: for every handler state and every configuration whose
`cache_max_age` is negative, `configure` fails with the negative-cache-age
error and leaves the state exactly as it was. -/
theorem C4_negative_cache_age (h : HandlerState) (c : Config) (n : Int)
    (hc : c.cacheAge = some n) (hn : n < 0) :
    configure h c = (h, some ConfigError.negativeCacheAge) := by
  simp only [configure, hc]
  rw [if_pos hn]

/-- C4 witness: compiling `cache_max_age = -1` on the empty handler fails
with the negative-cache-age error and leaves the state unchanged. -/
theorem C4_witness :
    configure emptyHandler cC4neg = (emptyHandler, some ConfigError.negativeCacheAge) :=
  C4_negative_cache_age emptyHandler cC4neg (-1) rfl (by decide)

/-! ### Claim C2 -/

/-- C2 counterexample: a VCS validation failure is not all-or-nothing —
`configure` with an unknown VCS returns an error but has already
overwritten the previously active host, cache-control and entry set. -/
theorem C2_counterexample :
    (configure hC2prev cC2bad).2 =
      some (ConfigError.unknownVCS "/x".toList "cvs".toList) ∧
    (configure hC2prev cC2bad).1 ≠ hC2prev ∧
    (configure hC2prev cC2bad).1.host = "new.example".toList ∧
    (configure hC2prev cC2bad).1.paths = [] := by
  exact ⟨by decide, by decide, by decide, by decide⟩

/-- C2 (amended): only the negative-cache-age failure leaves the handler
state untouched; any other compile failure (unknown or uninferable VCS)
occurs after the state has been overwritten, so the failed call leaves the
new host and the new cache-control value (and a partially rebuilt entry
list) in place of the previous snapshot. -/
theorem C2_partial_mutation (h : HandlerState) (c : Config) (h' : HandlerState)
    (err : ConfigError) (he : configure h c = (h', some err)) :
    (err = ConfigError.negativeCacheAge → h' = h) ∧
    (err ≠ ConfigError.negativeCacheAge →
      h'.host = c.host ∧ h'.cacheControl = cacheControlString (cacheAgeOf c)) := by
  obtain ⟨chost, cfi, cca, cpaths⟩ := c
  cases cca with
  | some n =>
    by_cases hn : n < 0
    · rw [show configure h ⟨chost, cfi, some n, cpaths⟩ =
          (h, some ConfigError.negativeCacheAge) from by simp [configure, hn]] at he
      injection he with he1 he2
      injection he2 with he2
      constructor
      · intro _
        exact he1.symm
      · intro hne
        exact absurd he2.symm hne
    · rw [show configure h ⟨chost, cfi, some n, cpaths⟩ =
          configureLoop ⟨chost, cacheControlString n, []⟩ cpaths from by
            simp [configure, hn]] at he
      have herr := configureLoop_err_ne cpaths ⟨chost, cacheControlString n, []⟩ err
        (congrArg Prod.snd he)
      have hcc := configureLoop_host_cc cpaths ⟨chost, cacheControlString n, []⟩
      have hfst : (configureLoop ⟨chost, cacheControlString n, []⟩ cpaths).1 = h' := by
        rw [he]
      constructor
      · intro heq
        exact absurd heq herr
      · intro _
        constructor
        · rw [← hfst]
          exact hcc.1
        · rw [← hfst]
          exact hcc.2
  | none =>
    rw [show configure h ⟨chost, cfi, none, cpaths⟩ =
        configureLoop ⟨chost, cacheControlString 86400, []⟩ cpaths from by
          simp [configure]] at he
    have herr := configureLoop_err_ne cpaths ⟨chost, cacheControlString 86400, []⟩ err
      (congrArg Prod.snd he)
    have hcc := configureLoop_host_cc cpaths ⟨chost, cacheControlString 86400, []⟩
    have hfst : (configureLoop ⟨chost, cacheControlString 86400, []⟩ cpaths).1 = h' := by
      rw [he]
    constructor
    · intro heq
      exact absurd heq herr
    · intro _
      constructor
      · rw [← hfst]
        exact hcc.1
      · rw [← hfst]
        exact hcc.2

/-- C2 witness: the amended statement evaluated on the concrete failing
reconfiguration with an unknown VCS. -/
theorem C2_witness :
    (ConfigError.unknownVCS "/x".toList "cvs".toList = ConfigError.negativeCacheAge →
      (⟨"new.example".toList, cacheControlString 86400, []⟩ : HandlerState) = hC2prev) ∧
    (ConfigError.unknownVCS "/x".toList "cvs".toList ≠ ConfigError.negativeCacheAge →
      (⟨"new.example".toList, cacheControlString 86400, []⟩ : HandlerState).host =
        cC2bad.host ∧
      (⟨"new.example".toList, cacheControlString 86400, []⟩ : HandlerState).cacheControl =
        cacheControlString (cacheAgeOf cC2bad)) :=
  C2_partial_mutation hC2prev cC2bad
    ⟨"new.example".toList, cacheControlString 86400, []⟩
    (ConfigError.unknownVCS "/x".toList "cvs".toList) (by decide)

/-! ### Claim C5 -/

/-- C5 counterexample: the raw keys `/foo` and `/foo/` both normalize to
`/foo`, so a successful compile can produce two entries with equal paths —
the compiled entry sequence is not duplicate-free. -/
theorem C5_counterexample :
    (configure emptyHandler cC5dup).2 = none ∧
    (configure emptyHandler cC5dup).1.paths.map pathConfig.path =
      ["/foo".toList, "/foo".toList] ∧
    ¬ ((configure emptyHandler cC5dup).1.paths.map pathConfig.path).Nodup := by
  exact ⟨by decide, by decide, by decide⟩

/-- C5 (amended): every successful compile leaves the entry sequence
sorted ascending by path (byte-wise comparison, possibly with equal
neighbours), and it is additionally strictly sorted — hence
duplicate-free — whenever the normalized raw path keys are pairwise
distinct; sorting is performed by the compiler (`find` never reorders). -/
theorem C5_sorted_entries (h : HandlerState) (c : Config) (h' : HandlerState)
    (he : configure h c = (h', none)) :
    List.Pairwise (fun a b => pcLe a b = true) h'.paths ∧
    ((c.paths.map fun kv => trimSuffix kv.1 ['/']).Nodup →
      List.Pairwise (fun a b => strLt a.path b.path = true) h'.paths) := by
  obtain ⟨tail, hpaths, hfa⟩ := configureLoop_ok c.paths _ h' (configure_ok_loop he)
  rw [List.nil_append] at hpaths
  constructor
  · rw [hpaths]
    exact sortPaths_sorted tail
  · intro hnodup
    have hmap : tail.map pathConfig.path = c.paths.map fun kv => trimSuffix kv.1 ['/'] :=
      forall₂_map_path hfa
    have hperm : (sortPaths tail).Perm tail := sortPaths_perm tail
    have hnd_tail : (tail.map pathConfig.path).Nodup := by
      rw [hmap]
      exact hnodup
    have hnd : ((sortPaths tail).map pathConfig.path).Nodup :=
      ((hperm.map pathConfig.path).nodup_iff).mpr hnd_tail
    have hneq : List.Pairwise (fun a b : pathConfig => a.path ≠ b.path)
        (sortPaths tail) := List.pairwise_map.mp hnd
    rw [hpaths]
    refine List.Pairwise.imp ?_ ((sortPaths_sorted tail).and hneq)
    intro a b hab
    have h1 : strLt b.path a.path = false := by
      have := hab.1
      simpa [pcLe] using this
    cases h2 : strLt a.path b.path with
    | true => rfl
    | false => exact absurd (strLt_conn h2 h1) hab.2

/-- C5 witness: the amended statement evaluated on the successful compile
of the duplicate-key configuration. -/
theorem C5_witness :
    List.Pairwise (fun a b => pcLe a b = true)
      (⟨[], cacheControlString 86400,
        [⟨"/foo".toList, "ra".toList, "d".toList, "git".toList⟩,
         ⟨"/foo".toList, "rb".toList, "d".toList, "git".toList⟩]⟩ : HandlerState).paths ∧
    ((cC5dup.paths.map fun kv => trimSuffix kv.1 ['/']).Nodup →
      List.Pairwise (fun a b => strLt a.path b.path = true)
        (⟨[], cacheControlString 86400,
          [⟨"/foo".toList, "ra".toList, "d".toList, "git".toList⟩,
           ⟨"/foo".toList, "rb".toList, "d".toList, "git".toList⟩]⟩ : HandlerState).paths) :=
  C5_sorted_entries emptyHandler cC5dup
    ⟨[], cacheControlString 86400,
      [⟨"/foo".toList, "ra".toList, "d".toList, "git".toList⟩,
       ⟨"/foo".toList, "rb".toList, "d".toList, "git".toList⟩]⟩ (by decide)

/-! ### Claim C6 -/

/-- C6 counterexample: the compiler never validates path or repo
nonemptiness — the raw key `/` normalizes to the empty path, and an empty
repo with an explicit valid VCS compiles successfully, producing a
snapshot entry with empty path and empty repo. -/
theorem C6_counterexample :
    (configure emptyHandler cC6empty).2 = none ∧
    (configure emptyHandler cC6empty).1.paths = [⟨[], [], [], "git".toList⟩] ∧
    ∃ pc ∈ (configure emptyHandler cC6empty).1.paths, pc.path = [] ∧ pc.repo = [] := by
  exact ⟨by decide, by decide, by decide⟩

/-- C6 (amended): every entry of a successfully compiled snapshot has a
resolved `vcs` drawn from {bzr, git, hg, svn}; nonemptiness of `path` and
`repo` is not guaranteed (they are taken from the raw configuration
unvalidated). -/
theorem C6_vcs_resolved (h : HandlerState) (c : Config) (h' : HandlerState)
    (he : configure h c = (h', none)) :
    ∀ pc ∈ h'.paths, pc.vcs = "bzr".toList ∨ pc.vcs = "git".toList ∨
      pc.vcs = "hg".toList ∨ pc.vcs = "svn".toList := by
  obtain ⟨tail, hpaths, hfa⟩ := configureLoop_ok c.paths _ h' (configure_ok_loop he)
  rw [List.nil_append] at hpaths
  intro pc hpc
  rw [hpaths] at hpc
  have hpc' : pc ∈ tail := (sortPaths_perm tail).mem_iff.mp hpc
  obtain ⟨kv, _, hok⟩ := forall₂_mem_right hfa pc hpc'
  exact compileEntry_ok_vcs hok

/-- C6 witness: the amended statement evaluated on the successful compile
of the empty-path, empty-repo configuration, at its single entry. -/
theorem C6_witness :
    (⟨[], [], [], "git".toList⟩ : pathConfig).vcs = "bzr".toList ∨
    (⟨[], [], [], "git".toList⟩ : pathConfig).vcs = "git".toList ∨
    (⟨[], [], [], "git".toList⟩ : pathConfig).vcs = "hg".toList ∨
    (⟨[], [], [], "git".toList⟩ : pathConfig).vcs = "svn".toList :=
  C6_vcs_resolved emptyHandler cC6empty
    ⟨[], cacheControlString 86400, [⟨[], [], [], "git".toList⟩]⟩ (by decide)
    ⟨[], [], [], "git".toList⟩ (by decide)

/-! ### Claim C7 -/

/-- C7: for every raw entry with an empty `vcs`: when its repo starts with
`https://github.com/` the compiler resolves `vcs` to `git` and, when
`display` is also empty, infers the github display template (nonempty and
containing `/tree/master` and `/blob/master`); otherwise the entry fails
with a cannot-infer-VCS error naming the raw path and repo, and any whole
compile containing such an entry returns an error. -/
theorem C7_vcs_inference (key : Str) (e : PathSpec) (hv : e.vcs = []) :
    (githubPfx <+: e.repo →
      ∃ pc, compileEntry key e = Except.ok pc ∧ pc.vcs = "git".toList ∧
        (e.display = [] → pc.display = githubDisplay e.repo ∧
          "/tree/master".toList <:+: pc.display ∧
          "/blob/master".toList <:+: pc.display ∧ pc.display ≠ [])) ∧
    (¬ githubPfx <+: e.repo →
      compileEntry key e = Except.error (ConfigError.cannotInferVCS key e.repo)) ∧
    (∀ (h : HandlerState) (c : Config), (key, e) ∈ c.paths →
      ¬ githubPfx <+: e.repo → (configure h c).2.isSome = true) := by
  have htree : "/tree/master".toList <:+: githubDisplay e.repo := by
    have hstep1 : "/tree/master".toList <+: "/tree/master{/dir} ".toList := by decide
    have hstep2 : "/tree/master{/dir} ".toList <:+: githubDisplay e.repo := by
      refine ⟨e.repo ++ " ".toList ++ e.repo,
        e.repo ++ "/blob/master{/dir}/{file}#L{line}".toList, ?_⟩
      simp [githubDisplay, List.append_assoc]
    exact List.IsInfix.trans hstep1.isInfix hstep2
  have hblob : "/blob/master".toList <:+: githubDisplay e.repo := by
    have hstep1 : "/blob/master".toList <+:
        "/blob/master{/dir}/{file}#L{line}".toList := by decide
    have hstep2 : "/blob/master{/dir}/{file}#L{line}".toList <:+:
        githubDisplay e.repo := by
      refine ⟨e.repo ++ " ".toList ++ e.repo ++ "/tree/master{/dir} ".toList ++ e.repo,
        [], ?_⟩
      simp [githubDisplay, List.append_assoc]
    exact List.IsInfix.trans hstep1.isInfix hstep2
  have hnonempty : githubDisplay e.repo ≠ [] := by
    intro hnil
    rw [hnil] at htree
    exact absurd (List.infix_nil.mp htree) (by decide)
  refine ⟨?_, ?_, ?_⟩
  · intro hg
    by_cases hd : e.display = []
    · refine ⟨⟨trimSuffix key ['/'], e.repo, githubDisplay e.repo, "git".toList⟩,
        ?_, rfl, ?_⟩
      · simp [compileEntry, hv, hd, hg]
      · intro _
        exact ⟨rfl, htree, hblob, hnonempty⟩
    · refine ⟨⟨trimSuffix key ['/'], e.repo, e.display, "git".toList⟩, ?_, rfl, ?_⟩
      · simp [compileEntry, hv, hd, hg]
      · intro hd'
        exact absurd hd' hd
  · intro hng
    simp [compileEntry, hv, hng]
  · intro h c hmem hng
    cases hconf : (configure h c).2 with
    | some e' => rfl
    | none =>
      exfalso
      have he : configure h c = ((configure h c).1, none) := by
        rw [← hconf]
      obtain ⟨pc, hpc⟩ := configure_ok_entries he (key, e) hmem
      have herr : compileEntry key e =
          Except.error (ConfigError.cannotInferVCS key e.repo) := by
        simp [compileEntry, hv, hng]
      rw [herr] at hpc
      exact absurd hpc (by simp)

/-- C7 witness: the inference statement evaluated at raw key `/x` with the
github-hosted spec that has no explicit display or vcs. -/
theorem C7_witness :
    (githubPfx <+: sC7git.repo →
      ∃ pc, compileEntry "/x".toList sC7git = Except.ok pc ∧ pc.vcs = "git".toList ∧
        (sC7git.display = [] → pc.display = githubDisplay sC7git.repo ∧
          "/tree/master".toList <:+: pc.display ∧
          "/blob/master".toList <:+: pc.display ∧ pc.display ≠ [])) ∧
    (¬ githubPfx <+: sC7git.repo →
      compileEntry "/x".toList sC7git =
        Except.error (ConfigError.cannotInferVCS "/x".toList sC7git.repo)) ∧
    (∀ (h : HandlerState) (c : Config), ("/x".toList, sC7git) ∈ c.paths →
      ¬ githubPfx <+: sC7git.repo → (configure h c).2.isSome = true) :=
  C7_vcs_inference "/x".toList sC7git rfl

/-! ### Claim C8 -/

/-- C8: for every raw path spec, an entry registered under the key `/foo/`
is stored with path `/foo`, compiles to exactly the same entry as one
registered under `/foo`, and that entry matches the request `/foo` exactly
(empty subpath) and `/foo/bar` with subpath `bar`. -/
theorem C8_trailing_slash (e : PathSpec) (pc : pathConfig)
    (h : compileEntry "/foo/".toList e = Except.ok pc) :
    pc.path = "/foo".toList ∧
    compileEntry "/foo".toList e = Except.ok pc ∧
    find [pc] "/foo".toList = (some pc, []) ∧
    find [pc] "/foo/bar".toList = (some pc, "bar".toList) := by
  have hpath : pc.path = "/foo".toList := by
    rw [compileEntry_ok_path h]
    decide
  have hsame : compileEntry "/foo".toList e = Except.ok pc := by
    have hk : trimSuffix "/foo/".toList ['/'] = "/foo".toList := by decide
    have hk2 : trimSuffix "/foo".toList ['/'] = "/foo".toList := by decide
    unfold compileEntry at h ⊢
    rw [hk] at h
    rw [hk2]
    split_ifs at h ⊢ <;> exact h
  have hfind1 : find [pc] "/foo".toList = (some pc, []) := by
    rw [← hpath]
    exact find_singleton_self pc
  have hfind2 : find [pc] "/foo/bar".toList = (some pc, "bar".toList) := by
    have hsplit : "/foo/bar".toList = pc.path ++ '/' :: "bar".toList := by
      rw [hpath]
      rfl
    rw [hsplit]
    exact find_singleton_slash pc "bar".toList
  exact ⟨hpath, hsame, hfind1, hfind2⟩

/-- C8 witness: the trailing-slash statement evaluated on a fully explicit
spec compiled under the key `/foo/`. -/
theorem C8_witness :
    (⟨"/foo".toList, "https://github.com/x/y".toList, "d".toList,
        "git".toList⟩ : pathConfig).path = "/foo".toList ∧
    compileEntry "/foo".toList sC8 =
      Except.ok ⟨"/foo".toList, "https://github.com/x/y".toList, "d".toList,
        "git".toList⟩ ∧
    find [⟨"/foo".toList, "https://github.com/x/y".toList, "d".toList,
        "git".toList⟩] "/foo".toList =
      (some ⟨"/foo".toList, "https://github.com/x/y".toList, "d".toList,
        "git".toList⟩, []) ∧
    find [⟨"/foo".toList, "https://github.com/x/y".toList, "d".toList,
        "git".toList⟩] "/foo/bar".toList =
      (some ⟨"/foo".toList, "https://github.com/x/y".toList, "d".toList,
        "git".toList⟩, "bar".toList) :=
  C8_trailing_slash sC8
    ⟨"/foo".toList, "https://github.com/x/y".toList, "d".toList, "git".toList⟩ rfl

/-! ### Claim C10 -/

/-- C10: a present but nonpositive `fetch_interval` is treated like an
absent one — the effective refresh interval is the default 86400 seconds,
a successful `NewHandler` hands that default to the refresh loop, and the
interval slept by the loop at every iteration is that startup value, never
changed by later reloads. -/
theorem C10_fetch_interval_default (c : Config) (v : Int)
    (hc : c.fetchInterval = some v) (hv : v ≤ 0) :
    effectiveFetchInterval c = 86400 ∧
    (∀ st fi, newHandler (some c) = Except.ok (st, fi) → fi = 86400) ∧
    (∀ (h : HandlerState) (rs : List (Option Config)) (x : Int × HandlerState),
      x ∈ refreshRun (effectiveFetchInterval c) h rs → x.1 = 86400) := by
  have heff : effectiveFetchInterval c = 86400 := by
    simp [effectiveFetchInterval, hc, not_lt.mpr hv]
  refine ⟨heff, ?_, ?_⟩
  · intro st fi hok
    simp only [newHandler] at hok
    cases hconf : configure emptyHandler c with
    | mk h1 o =>
      rw [hconf] at hok
      cases o with
      | some err => simp at hok
      | none =>
        simp only [Except.ok.injEq, Prod.mk.injEq] at hok
        rw [← hok.2]
        exact heff
  · intro h rs x hx
    rw [refreshRun_interval (effectiveFetchInterval c) h rs x hx]
    exact heff

/-- C10 witness: the default-interval statement evaluated on the concrete
configuration with `fetch_interval = 0`. -/
theorem C10_witness :
    effectiveFetchInterval cC10 = 86400 ∧
    (∀ st fi, newHandler (some cC10) = Except.ok (st, fi) → fi = 86400) ∧
    (∀ (h : HandlerState) (rs : List (Option Config)) (x : Int × HandlerState),
      x ∈ refreshRun (effectiveFetchInterval cC10) h rs → x.1 = 86400) :=
  C10_fetch_interval_default cC10 0 rfl (by decide)

end VanityUrls
